import Mathlib

/-
  Verification development for eas_alsadrv.c (Sonivox EAS ALSA driver).

  Shallow embedding of:
  - the transfer channel (write_event, the dequeue part of render_subbuffer),
  - the MIDI event encoder (process_event with its running-status state),
  - the render/pacing loop (startup pre-fill, the per-tick drain loop and
    the idle-pause state machine of main_loop).

  Byte values are modelled as Nat, machine indices as Nat with explicit
  mod 65536 where the source masks with 0xffff.
-/

namespace EasAlsaDrv

/-! ### Transfer channel

The source globals touched by write_event and the dequeue part of
render_subbuffer: `event_buffer[65536]`, `event_read_index`,
`event_write_index`, `midi_event_written`.  `overflow_diags` counts the
lines `"Event buffer overflow"` printed to stderr by write_event. -/

structure Channel where
  event_buffer : Nat → Nat
  event_read_index : Nat
  event_write_index : Nat
  midi_event_written : Bool
  overflow_diags : Nat

/-- Free-space computation of write_event (source lines 134-141):
if `write_index >= read_index` then `65535 - (write_index - read_index)`
else `(read_index - write_index) - 1`. -/
def free_space (ri wi : Nat) : Nat :=
  if ri ≤ wi then 65535 - (wi - ri) else (ri - wi) - 1

/-- The byte-copy loop of write_event (source lines 150-154): store each
byte at the write index, advancing it with the 0xffff mask. -/
def writeLoop : (Nat → Nat) → Nat → List Nat → ((Nat → Nat) × Nat)
  | buf, wi, [] => (buf, wi)
  | buf, wi, b :: rest => writeLoop (Function.update buf wi b) ((wi + 1) % 65536) rest

/-- write_event (source lines 125-160): drop the whole event and print a
diagnostic if it does not fit in the free space, otherwise copy the bytes
and publish the new write index and the notification flag. -/
def write_event (ev : List Nat) (c : Channel) : Channel :=
  if ev.length > free_space c.event_read_index c.event_write_index then
    { c with overflow_diags := c.overflow_diags + 1 }
  else
    let r := writeLoop c.event_buffer c.event_write_index ev
    { c with event_buffer := r.1, event_write_index := r.2, midi_event_written := true }

/-- The bytes forwarded to EAS_WriteMIDIStream by render_subbuffer
(source lines 1433-1444): nothing when the indices coincide, one span when
`read_index < write_index`, otherwise the pre-wrap span followed by the
post-wrap span. -/
def dequeue_bytes (c : Channel) : List Nat :=
  if c.event_read_index = c.event_write_index then []
  else if c.event_read_index < c.event_write_index then
    (List.range (c.event_write_index - c.event_read_index)).map
      (fun i => c.event_buffer (c.event_read_index + i))
  else
    (List.range (65536 - c.event_read_index)).map
      (fun i => c.event_buffer (c.event_read_index + i)) ++
    (List.range c.event_write_index).map (fun i => c.event_buffer i)

/-- State change of the dequeue part of render_subbuffer (source line 1447):
advance `read_index` to the `write_index` snapshot. -/
def dequeue (c : Channel) : Channel :=
  if c.event_read_index = c.event_write_index then c
  else { c with event_read_index := c.event_write_index }

/-- An empty channel whose two indices both sit at position r (after
start_synth both are 0; after any dequeue they coincide at the snapshot). -/
def initChannel (r : Nat) : Channel :=
  { event_buffer := fun _ => 0
    event_read_index := r
    event_write_index := r
    midi_event_written := false
    overflow_diags := 0 }

/-- Enqueue a sequence of byte chunks, one write_event call per chunk. -/
def enqueueAll (chunks : List (List Nat)) (c : Channel) : Channel :=
  chunks.foldl (fun c ev => write_event ev c) c

/-- Circular read of len bytes starting at position r. -/
def readSeg (buf : Nat → Nat) (r len : Nat) : List Nat :=
  (List.range len).map (fun i => buf ((r + i) % 65536))

/-- A concrete channel with zero free space: `free_space 0 65535 = 0`. -/
def fullChannel : Channel := { initChannel 0 with event_write_index := 65535 }

/-- A concrete channel with two bytes of free space: `free_space 0 65533 = 2`. -/
def nearFullChannel : Channel := { initChannel 0 with event_write_index := 65533 }

/-! ### MIDI event encoder

process_event (source lines 162-615).  The embedding covers the event
variants reasoned about below: note-on, note-off, control-change,
program-change, channel-pressure, 14-bit control-change and raw
system-exclusive.  Event fields are byte values (Nat). -/

inductive SeqEvent where
  | noteOn (channel note velocity : Nat)
  | noteOff (channel note velocity : Nat)
  | controlChange (channel param value : Nat)
  | pgmChange (channel value : Nat)
  | chanPress (channel value : Nat)
  | control14 (channel param value : Nat)
  | sysex (payload : List Nat)
  deriving DecidableEq

/-- process_event: returns the new running_status and the byte sequence
passed to write_event (`none` when no write_event call is made, as for a
14-bit control-change with controller number outside [0,32)).  Each enabled
case compares the computed status byte with running_status and omits the
status byte on a match; note-off is sent as note-on with velocity 0
(source line 192-195); sysex passes the payload through and resets
running_status to 0 (source lines 418-422). -/
def process_event : SeqEvent → Nat → Nat × Option (List Nat)
  | .noteOn ch n v, rs =>
    if 0x90 ||| ch ≠ rs then (0x90 ||| ch, some [0x90 ||| ch, n, v])
    else (rs, some [n, v])
  | .noteOff ch n _, rs =>
    if 0x90 ||| ch ≠ rs then (0x90 ||| ch, some [0x90 ||| ch, n, 0])
    else (rs, some [n, 0])
  | .controlChange ch p v, rs =>
    if 0xB0 ||| ch ≠ rs then (0xB0 ||| ch, some [0xB0 ||| ch, p, v])
    else (rs, some [p, v])
  | .pgmChange ch v, rs =>
    if 0xC0 ||| ch ≠ rs then (0xC0 ||| ch, some [0xC0 ||| ch, v])
    else (rs, some [v])
  | .chanPress ch v, rs =>
    if 0xD0 ||| ch ≠ rs then (0xD0 ||| ch, some [0xD0 ||| ch, v])
    else (rs, some [v])
  | .control14 ch p v, rs =>
    if p < 32 then
      if 0xB0 ||| ch ≠ rs then
        (0xB0 ||| ch, some [0xB0 ||| ch, p, (v >>> 7) &&& 0x7f, p + 32, v &&& 0x7f])
      else (rs, some [p, (v >>> 7) &&& 0x7f, p + 32, v &&& 0x7f])
    else (rs, none)
  | .sysex payload, _ => (0, some payload)

/-- Process a sequence of events, threading running_status and collecting
the bytes handed to write_event (the encoded stream). -/
def processSeq : List SeqEvent → Nat → Nat × List Nat
  | [], rs => (rs, [])
  | e :: rest, rs =>
    let r := process_event e rs
    let r2 := processSeq rest r.1
    (r2.1, r.2.getD [] ++ r2.2)

/-- Process one event against the channel: running_status is updated by
process_event before write_event runs (source lines 175-183), so the
returned status survives even when write_event drops the bytes. -/
def process_event_ch (e : SeqEvent) (rs : Nat) (c : Channel) : Nat × Channel :=
  let r := process_event e rs
  match r.2 with
  | some bs => (r.1, write_event bs c)
  | none => (r.1, c)

/-- Recognizer for note-on/note-off events on channel ch whose data bytes
are in MIDI range (below 128). -/
def sameStatusNote (ch : Nat) : SeqEvent → Bool
  | .noteOn c n v => c == ch && decide (n < 128) && decide (v < 128)
  | .noteOff c n v => c == ch && decide (n < 128) && decide (v < 128)
  | _ => false

/-! ### Render/pacing loop (main_loop) -/

inductive MainAction where
  | render (slot : Nat)
  | write (slot : Nat)
  | tryPause
  deriving DecidableEq

/-- The startup for loop of main_loop (source lines 1504-1507):
`for (int i = 2; i < num_subbuffers; i++) output_subbuffer(i);`. -/
def prefillLoop (n : Nat) (i : Nat) : List MainAction :=
  if h : i < n then MainAction.write i :: prefillLoop n (i + 1) else []
termination_by n - i
decreasing_by omega

/-- Startup sequence of main_loop before the tick loop (source lines
1504-1520): the pre-fill for loop (writes only — the staging buffers hold
the zeros set by start_synth, render_subbuffer is not called) followed by
one pause attempt on the PCM device. -/
def mainLoopStartup (n : Nat) : List MainAction :=
  prefillLoop n 2 ++ [MainAction.tryPause]

/-- Modelled from the spec: the claimed startup sequence, "pre-fills the
device buffer by rendering and writing all but the first two periods worth
of subbuffers (subbuffer indices 2 through N-1), and then attempts an
initial pause of the output device" — each prefilled slot rendered and then
written.  For comparison with mainLoopStartup, which is translated from
the source. -/
def mainLoopStartupSpec (n : Nat) : List MainAction :=
  ((List.range n).drop 2).flatMap
    (fun i => [MainAction.render i, MainAction.write i]) ++ [MainAction.tryPause]

inductive TickAction where
  | render (slot : Nat) (ok : Bool)
  | write (slot : Nat) (ok : Bool)
  deriving DecidableEq

/-- The inner drain loop of one tick of main_loop (source lines 1581-1605):
while `available_frames >= 3 * samples_per_call`, call render_subbuffer on
the current slot (a failure only prints an error), then output_subbuffer on
the same slot; on a write failure set available frames to 0 and break
(without advancing the slot counter); on success subtract one period from
available frames and advance `subbuf_counter`, wrapping to 0 at
num_subbuffers.  The oracles renderOk/outputOk give the success of the
render/output calls of each iteration; fuel bounds the recursion (any fuel
at least the available frame count suffices when the period size is
positive, since each iteration consumes spc ≥ 1 frames). -/
def drainLoopAux (renderOk outputOk : Nat → Bool) (spc nsub : Nat) :
    Nat → Nat → Nat → Nat → Nat × Nat × List TickAction
  | 0, avail, sb, _ => (avail, sb, [])
  | fuel + 1, avail, sb, it =>
    if 3 * spc ≤ avail then
      if outputOk it then
        let next := drainLoopAux renderOk outputOk spc nsub fuel (avail - spc)
          (if sb + 1 = nsub then 0 else sb + 1) (it + 1)
        (next.1, next.2.1,
          TickAction.render sb (renderOk it) :: TickAction.write sb true :: next.2.2)
      else
        (0, sb, [TickAction.render sb (renderOk it), TickAction.write sb false])
    else (avail, sb, [])

/-- The drain loop entered with available frames avail and slot counter sb
(iteration numbering starts at 0; fuel avail suffices). -/
def drainLoop (renderOk outputOk : Nat → Bool) (spc nsub avail sb : Nat) :
    Nat × Nat × List TickAction :=
  drainLoopAux renderOk outputOk spc nsub avail avail sb 0

/-- Number of iterations the drain loop performs when every device write
succeeds: 0 when avail < 3*spc, otherwise avail/spc - 2. -/
def numIters (spc avail : Nat) : Nat :=
  if avail < 3 * spc then 0 else avail / spc - 2

/-- Action trace of n successful drain iterations starting at slot sb and
iteration number it: each iteration renders then writes slot (sb+i) mod
nsub. -/
def drainTrace (renderOk : Nat → Bool) (nsub sb it n : Nat) : List TickAction :=
  (List.range n).flatMap (fun i =>
    [TickAction.render ((sb + i) % nsub) (renderOk (it + i)),
     TickAction.write ((sb + i) % nsub) true])

inductive PcmAction where
  | unpause
  | tryPause (ok : Bool)
  deriving DecidableEq

/-- State of the idle-pause machine of main_loop: `is_paused` and the
seconds field of `last_written_time`. -/
structure TickState where
  is_paused : Bool
  last_written_time : Int
  deriving DecidableEq

/-- The pause/unpause prologue of one tick of main_loop (source lines
1535-1572).  Inputs: the `midi_event_written` flag ev, the current time in
seconds, and the result of a pause attempt (pauseOk).  On a written event:
record the time and unpause if paused.  Otherwise, when paused do nothing;
when active and more than 60 seconds elapsed, attempt to pause: on success
become paused, on failure reset the last-written time to now. -/
def tick_prologue (ev : Bool) (now : Int) (pauseOk : Bool) (s : TickState) :
    TickState × List PcmAction :=
  if ev then
    ({ is_paused := false, last_written_time := now },
     if s.is_paused then [PcmAction.unpause] else [])
  else if s.is_paused then (s, [])
  else if now - s.last_written_time > 60 then
    if pauseOk then ({ s with is_paused := true }, [PcmAction.tryPause true])
    else ({ s with last_written_time := now }, [PcmAction.tryPause false])
  else (s, [])

/-- Invariant tying a channel state to the list of bytes written since the
last time the indices coincided at position r. -/
def ChannelInv (c : Channel) (r : Nat) (w : List Nat) : Prop :=
  c.event_read_index = r ∧
  c.event_write_index = (r + w.length) % 65536 ∧
  readSeg c.event_buffer r w.length = w

lemma writeLoop_snd (ev : List Nat) : ∀ buf wi, wi < 65536 →
    (writeLoop buf wi ev).2 = (wi + ev.length) % 65536 := by
  induction ev with
  | nil => intro buf wi h; simp only [writeLoop, List.length_nil]; omega
  | cons b rest ih =>
    intro buf wi h
    simp only [writeLoop, List.length_cons]
    rw [ih _ _ (Nat.mod_lt _ (by omega))]
    omega

lemma writeLoop_frame (ev : List Nat) : ∀ buf wi p, wi < 65536 → ev.length ≤ 65536 →
    (∀ j, j < ev.length → p ≠ (wi + j) % 65536) → (writeLoop buf wi ev).1 p = buf p := by
  induction ev with
  | nil => intro buf wi p _ _ _; rfl
  | cons b rest ih =>
    intro buf wi p hwi hlen hp
    simp only [List.length_cons] at hlen
    simp only [writeLoop]
    have hrest : (writeLoop (Function.update buf wi b) ((wi + 1) % 65536) rest).1 p =
        Function.update buf wi b p := by
      apply ih
      · exact Nat.mod_lt _ (by omega)
      · omega
      · intro j hj
        have h2 := hp (j + 1) (by simp only [List.length_cons]; omega)
        have heq : ((wi + 1) % 65536 + j) % 65536 = (wi + (j + 1)) % 65536 := by omega
        rw [heq]; exact h2
    rw [hrest]
    have h0 := hp 0 (by simp only [List.length_cons]; omega)
    have hne : p ≠ wi := by omega
    exact Function.update_noteq hne b buf

lemma writeLoop_lookup (ev : List Nat) : ∀ buf wi j, wi < 65536 → ev.length ≤ 65536 →
    j < ev.length → (writeLoop buf wi ev).1 ((wi + j) % 65536) = ev.getD j 0 := by
  induction ev with
  | nil => intro buf wi j _ _ hj; simp at hj
  | cons b rest ih =>
    intro buf wi j hwi hlen hj
    simp only [List.length_cons] at hlen
    simp only [writeLoop]
    cases j with
    | zero =>
      have hfr : (writeLoop (Function.update buf wi b) ((wi + 1) % 65536) rest).1
          ((wi + 0) % 65536) = Function.update buf wi b ((wi + 0) % 65536) := by
        apply writeLoop_frame
        · exact Nat.mod_lt _ (by omega)
        · omega
        · intro j' hj'
          have hb : j' + 1 ≤ 65535 := by omega
          omega
      rw [hfr]
      have heq : (wi + 0) % 65536 = wi := by omega
      rw [heq, Function.update_same]
      rfl
    | succ j' =>
      have heq : (wi + (j' + 1)) % 65536 = ((wi + 1) % 65536 + j') % 65536 := by omega
      rw [heq]
      rw [ih _ _ _ (Nat.mod_lt _ (by omega)) (by omega)
        (by simp only [List.length_cons] at hj; omega)]
      simp only [List.getD_cons_succ]

lemma map_range_getD (ev : List Nat) :
    (List.range ev.length).map (fun j => ev.getD j 0) = ev := by
  induction ev with
  | nil => rfl
  | cons b rest ih =>
    rw [List.length_cons, List.range_succ_eq_map]
    simp only [List.map_cons, List.map_map, List.getD_cons_zero]
    congr 1

lemma readSeg_writeLoop (buf : Nat → Nat) (r L : Nat) (ev : List Nat)
    (hr : r < 65536) (hlen : L + ev.length ≤ 65536) :
    readSeg (writeLoop buf ((r + L) % 65536) ev).1 r (L + ev.length) =
      readSeg buf r L ++ ev := by
  unfold readSeg
  rw [List.range_add, List.map_append]
  congr 1
  · apply List.map_congr_left
    intro i hi
    rw [List.mem_range] at hi
    apply writeLoop_frame
    · exact Nat.mod_lt _ (by omega)
    · omega
    · intro j hj
      omega
  · rw [List.map_map]
    have hstep : ∀ j ∈ List.range ev.length,
        ((fun i => (writeLoop buf ((r + L) % 65536) ev).1 ((r + i) % 65536)) ∘ (L + ·)) j =
          ev.getD j 0 := by
      intro j hj
      rw [List.mem_range] at hj
      show (writeLoop buf ((r + L) % 65536) ev).1 ((r + (L + j)) % 65536) = ev.getD j 0
      have heq : (r + (L + j)) % 65536 = ((r + L) % 65536 + j) % 65536 := by omega
      rw [heq]
      exact writeLoop_lookup ev buf _ j (Nat.mod_lt _ (by omega)) (by omega) hj
    rw [List.map_congr_left hstep, map_range_getD]

lemma free_space_occupied (r L : Nat) (hr : r < 65536) (hL : L ≤ 65535) :
    free_space r ((r + L) % 65536) = 65535 - L := by
  unfold free_space
  split <;> omega

lemma write_event_inv (ev : List Nat) (c : Channel) (r : Nat) (w : List Nat)
    (hr : r < 65536) (hinv : ChannelInv c r w) (hlen : w.length + ev.length ≤ 65535) :
    ChannelInv (write_event ev c) r (w ++ ev) := by
  obtain ⟨h1, h2, h3⟩ := hinv
  have hfree : free_space c.event_read_index c.event_write_index = 65535 - w.length := by
    rw [h1, h2]
    exact free_space_occupied r w.length hr (by omega)
  have hfit : ¬ ev.length > free_space c.event_read_index c.event_write_index := by
    rw [hfree]; omega
  unfold write_event
  rw [if_neg hfit]
  refine ⟨h1, ?_, ?_⟩
  · show (writeLoop c.event_buffer c.event_write_index ev).2 = (r + (w ++ ev).length) % 65536
    rw [writeLoop_snd ev _ _ (by rw [h2]; exact Nat.mod_lt _ (by omega)), h2,
      List.length_append]
    omega
  · show readSeg (writeLoop c.event_buffer c.event_write_index ev).1 r (w ++ ev).length =
      w ++ ev
    rw [List.length_append, h2]
    rw [readSeg_writeLoop c.event_buffer r w.length ev hr (by omega), h3]

lemma enqueueAll_inv (chunks : List (List Nat)) : ∀ (c : Channel) (r : Nat) (w : List Nat),
    r < 65536 → ChannelInv c r w →
    w.length + (chunks.map List.length).sum ≤ 65535 →
    ChannelInv (enqueueAll chunks c) r (w ++ chunks.flatten) := by
  induction chunks with
  | nil => intro c r w _ hinv _; simpa [enqueueAll] using hinv
  | cons ev rest ih =>
    intro c r w hr hinv hlen
    simp only [List.map_cons, List.sum_cons] at hlen
    have hstep := write_event_inv ev c r w hr hinv (by omega)
    have := ih (write_event ev c) r (w ++ ev) hr hstep
      (by rw [List.length_append]; omega)
    simpa [enqueueAll, List.flatten_cons, List.append_assoc] using this

lemma dequeue_bytes_eq_readSeg (c : Channel)
    (h1 : c.event_read_index < 65536) (h2 : c.event_write_index < 65536) :
    dequeue_bytes c = readSeg c.event_buffer c.event_read_index
      ((c.event_write_index + 65536 - c.event_read_index) % 65536) := by
  set ri := c.event_read_index with hri
  set wi := c.event_write_index with hwi
  unfold dequeue_bytes readSeg
  by_cases he : ri = wi
  · rw [if_pos he]
    have hz : (wi + 65536 - ri) % 65536 = 0 := by omega
    rw [hz]
    rfl
  · rw [if_neg he]
    by_cases hlt : ri < wi
    · rw [if_pos hlt]
      have hlen : (wi + 65536 - ri) % 65536 = wi - ri := by omega
      rw [hlen]
      apply List.map_congr_left
      intro i hi
      rw [List.mem_range] at hi
      have : (ri + i) % 65536 = ri + i := by omega
      rw [this]
    · rw [if_neg hlt]
      have hlen : (wi + 65536 - ri) % 65536 = (65536 - ri) + wi := by omega
      rw [hlen, List.range_add, List.map_append]
      congr 1
      · apply List.map_congr_left
        intro i hi
        rw [List.mem_range] at hi
        have : (ri + i) % 65536 = ri + i := by omega
        rw [this]
      · rw [List.map_map]
        apply List.map_congr_left
        intro j hj
        rw [List.mem_range] at hj
        show c.event_buffer j = c.event_buffer ((ri + (65536 - ri + j)) % 65536)
        have : (ri + (65536 - ri + j)) % 65536 = j := by omega
        rw [this]

/-- C1: when the byte sequence passed to write_event is longer than the
current free space (capacity minus one minus occupied bytes), write_event
leaves the buffer contents, write_index, read_index and the notification
flag unchanged (no partial write) and emits one diagnostic line.  Amended
from the claim: the program maintains no overflow counter — the only
observable record of the overflow is the emitted diagnostic. -/
theorem write_event_overflow_drops_whole_event (ev : List Nat) (c : Channel)
    (h : ev.length > free_space c.event_read_index c.event_write_index) :
    (write_event ev c).event_buffer = c.event_buffer ∧
    (write_event ev c).event_write_index = c.event_write_index ∧
    (write_event ev c).event_read_index = c.event_read_index ∧
    (write_event ev c).midi_event_written = c.midi_event_written ∧
    (write_event ev c).overflow_diags = c.overflow_diags + 1 := by
  unfold write_event
  rw [if_pos h]
  exact ⟨rfl, rfl, rfl, rfl, rfl⟩

/-- C1 witness: a concrete overflowing call (one byte offered, zero bytes
free) exercising the overflow theorem. -/
theorem write_event_overflow_drops_whole_event_witness :
    (write_event [7] fullChannel).event_buffer = fullChannel.event_buffer ∧
    (write_event [7] fullChannel).event_write_index = fullChannel.event_write_index ∧
    (write_event [7] fullChannel).event_read_index = fullChannel.event_read_index ∧
    (write_event [7] fullChannel).midi_event_written = fullChannel.midi_event_written ∧
    (write_event [7] fullChannel).overflow_diags = fullChannel.overflow_diags + 1 :=
  write_event_overflow_drops_whole_event [7] fullChannel (by decide)

/-- C1 counterexample: at a concrete overflowing input the state after the
call is identical to the state before the call in every component of the
complete mutable state touched by write_event, except that the count of
emitted stderr diagnostics grows by one.  The source maintains no overflow
counter (its only counter-like global, subbuf_counter, is never accessed by
write_event), so the claim that an overflow counter is incremented is false:
nothing apart from the diagnostic line changes. -/
theorem write_event_overflow_no_counter :
    write_event [7] fullChannel =
      { fullChannel with overflow_diags := fullChannel.overflow_diags + 1 } := rfl

/-- C2: for any sequence of byte chunks enqueued via write_event whose total
size is below capacity minus one (65535 bytes), starting from an empty
channel (indices coincident at any position r, including positions where the
occupied region will cross the capacity boundary), the bytes the consumer
forwards to the rendering engine in render_subbuffer equal the concatenation
of the enqueued chunks, in order, with no duplication or loss, and the
consumer then advances read_index to the write_index snapshot. -/
theorem channel_roundtrip (chunks : List (List Nat)) (r : Nat) (hr : r < 65536)
    (htotal : (chunks.map List.length).sum < 65535) :
    dequeue_bytes (enqueueAll chunks (initChannel r)) = chunks.flatten ∧
    (dequeue (enqueueAll chunks (initChannel r))).event_read_index =
      (enqueueAll chunks (initChannel r)).event_write_index := by
  have hinv0 : ChannelInv (initChannel r) r [] := by
    refine ⟨rfl, ?_, rfl⟩
    show r = (r + List.length []) % 65536
    simp only [List.length_nil]
    omega
  have hinv := enqueueAll_inv chunks (initChannel r) r [] hr hinv0
    (by simp only [List.length_nil]; omega)
  rw [List.nil_append] at hinv
  obtain ⟨h1, h2, h3⟩ := hinv
  have hlen : chunks.flatten.length = (chunks.map List.length).sum :=
    List.length_flatten chunks
  have hwi : (enqueueAll chunks (initChannel r)).event_write_index < 65536 := by
    rw [h2]; exact Nat.mod_lt _ (by omega)
  have hri : (enqueueAll chunks (initChannel r)).event_read_index < 65536 := by
    rw [h1]; omega
  constructor
  · rw [dequeue_bytes_eq_readSeg _ hri hwi, h1, h2]
    have hocc : ((r + chunks.flatten.length) % 65536 + 65536 - r) % 65536 =
        chunks.flatten.length := by
      rw [hlen]
      omega
    rw [hocc]
    exact h3
  · unfold dequeue
    split
    · next h => exact h
    · rfl

/-- C2 witness: two chunks whose three bytes wrap across the capacity
boundary (positions 65534, 65535, 0) and are read back in two spans. -/
theorem channel_roundtrip_witness :
    dequeue_bytes (enqueueAll [[1, 2], [3]] (initChannel 65534)) =
      ([[1, 2], [3]] : List (List Nat)).flatten ∧
    (dequeue (enqueueAll [[1, 2], [3]] (initChannel 65534))).event_read_index =
      (enqueueAll [[1, 2], [3]] (initChannel 65534)).event_write_index :=
  channel_roundtrip [[1, 2], [3]] 65534 (by decide) (by decide)

lemma lor_0x90 : ∀ ch : Nat, ch < 16 → 0x90 ||| ch = 0x90 + ch := by decide

lemma lor_0x80 : ∀ ch : Nat, ch < 16 → 0x80 ||| ch = 0x80 + ch := by decide

lemma processSeq_same_status (ch : Nat) (hch : ch < 16) :
    ∀ es : List SeqEvent, (∀ e ∈ es, sameStatusNote ch e = true) →
      (processSeq es (0x90 ||| ch)).1 = 0x90 ||| ch ∧
      ∀ b ∈ (processSeq es (0x90 ||| ch)).2, b < 128 := by
  intro es
  induction es with
  | nil =>
    intro _
    exact ⟨rfl, by intro b hb; simp [processSeq] at hb⟩
  | cons e rest ih =>
    intro h
    have he := h e (List.mem_cons_self e rest)
    have hrest : ∀ e' ∈ rest, sameStatusNote ch e' = true :=
      fun e' he' => h e' (List.mem_cons_of_mem _ he')
    obtain ⟨ihr1, ihr2⟩ := ih hrest
    cases e with
    | noteOn c n v =>
      simp only [sameStatusNote, Bool.and_eq_true, beq_iff_eq, decide_eq_true_eq] at he
      obtain ⟨⟨hc, hn⟩, hv⟩ := he
      subst hc
      simp only [processSeq, process_event, ne_eq, not_true_eq_false, if_false,
        Option.getD_some]
      refine ⟨ihr1, ?_⟩
      intro b hb
      rw [List.mem_append] at hb
      rcases hb with hb | hb
      · simp only [List.mem_cons, List.not_mem_nil, or_false] at hb
        omega
      · exact ihr2 b hb
    | noteOff c n v =>
      simp only [sameStatusNote, Bool.and_eq_true, beq_iff_eq, decide_eq_true_eq] at he
      obtain ⟨⟨hc, hn⟩, hv⟩ := he
      subst hc
      simp only [processSeq, process_event, ne_eq, not_true_eq_false, if_false,
        Option.getD_some]
      refine ⟨ihr1, ?_⟩
      intro b hb
      rw [List.mem_append] at hb
      rcases hb with hb | hb
      · simp only [List.mem_cons, List.not_mem_nil, or_false] at hb
        omega
      · exact ihr2 b hb
    | controlChange c p v => simp [sameStatusNote] at he
    | pgmChange c v => simp [sameStatusNote] at he
    | chanPress c v => simp [sameStatusNote] at he
    | control14 c p v => simp [sameStatusNote] at he
    | sysex p => simp [sameStatusNote] at he

/-- C3: processing any nonempty sequence of note-on/note-off events on the
same channel from running_status = 0, the enqueued byte stream contains
the status byte 0x90|channel exactly once (all such events share one
status, so one maximal run); and concretely two consecutive note-ons on
channel 0 emit [0x90,60,100] then [64,90], the second message omitting the
status byte. -/
theorem running_status_once_per_run (ch : Nat) (es : List SeqEvent)
    (hch : ch < 16) (hne : es ≠ [])
    (hall : ∀ e ∈ es, sameStatusNote ch e = true) :
    ((processSeq es 0).2).count (0x90 ||| ch) = 1 ∧
    processSeq [.noteOn 0 60 100, .noteOn 0 64 90] 0 =
      (0x90, [0x90, 60, 100, 64, 90]) := by
  have hs := lor_0x90 ch hch
  refine ⟨?_, by decide⟩
  cases es with
  | nil => exact absurd rfl hne
  | cons e rest =>
    have he := hall e (List.mem_cons_self e rest)
    have hrest : ∀ e' ∈ rest, sameStatusNote ch e' = true :=
      fun e' he' => hall e' (List.mem_cons_of_mem _ he')
    obtain ⟨hfix, hlt⟩ := processSeq_same_status ch hch rest hrest
    have hz : (processSeq rest (0x90 ||| ch)).2.count (0x90 ||| ch) = 0 := by
      rw [List.count_eq_zero]
      intro hmem
      have := hlt _ hmem
      omega
    cases e with
    | noteOn c n v =>
      simp only [sameStatusNote, Bool.and_eq_true, beq_iff_eq, decide_eq_true_eq] at he
      obtain ⟨⟨hc, hn⟩, hv⟩ := he
      subst hc
      simp only [processSeq, process_event, Option.getD_some]
      rw [if_pos (show (0x90 ||| c) ≠ 0 by omega)]
      simp only [Option.getD_some, List.count_append, hz]
      have h1 : ¬ (n = 0x90 ||| c) := by omega
      have h2 : ¬ (v = 0x90 ||| c) := by omega
      simp [List.count_cons, h1, h2]
    | noteOff c n v =>
      simp only [sameStatusNote, Bool.and_eq_true, beq_iff_eq, decide_eq_true_eq] at he
      obtain ⟨⟨hc, hn⟩, hv⟩ := he
      subst hc
      simp only [processSeq, process_event, Option.getD_some]
      rw [if_pos (show (0x90 ||| c) ≠ 0 by omega)]
      simp only [Option.getD_some, List.count_append, hz]
      have h1 : ¬ (n = 0x90 ||| c) := by omega
      have h2 : ¬ ((0 : Nat) = 0x90 ||| c) := by omega
      simp [List.count_cons, h1, h2]
    | controlChange c p v => simp [sameStatusNote] at he
    | pgmChange c v => simp [sameStatusNote] at he
    | chanPress c v => simp [sameStatusNote] at he
    | control14 c p v => simp [sameStatusNote] at he
    | sysex p => simp [sameStatusNote] at he

/-- C3 witness: the theorem applied to the concrete two note-on sequence on
channel 0. -/
theorem running_status_once_per_run_witness :
    ((processSeq [.noteOn 0 60 100, .noteOn 0 64 90] 0).2).count (0x90 ||| 0) = 1 ∧
    processSeq [.noteOn 0 60 100, .noteOn 0 64 90] 0 =
      (0x90, [0x90, 60, 100, 64, 90]) :=
  running_status_once_per_run 0 [.noteOn 0 60 100, .noteOn 0 64 90]
    (by decide) (by decide) (by decide)

/-- C6: a raw system-exclusive event passes its payload bytes through to
the channel unmodified and unconditionally resets running_status to 0;
consequently a note-on, a sysex block, then an identical note-on emit the
full status byte on both note-on events. -/
theorem sysex_passthrough_resets_running_status :
    (∀ (payload : List Nat) (rs : Nat),
      process_event (.sysex payload) rs = (0, some payload)) ∧
    ∀ p : List Nat,
      processSeq [.noteOn 0 60 100, .sysex p, .noteOn 0 60 100] 0 =
        (0x90, [0x90, 60, 100] ++ p ++ [0x90, 60, 100]) := by
  constructor
  · intro payload rs
    rfl
  · intro p
    simp [processSeq, process_event]

/-- C7: a 14-bit control-change with controller number below 32 emits
{0xB0|channel, param, (value>>7)&0x7f, param+32, value&0x7f}, the leading
status byte omitted when running status applies; concretely controller 1
with value 0x1234 from running_status 0 emits
[0xB0, 1, (0x1234>>7)&0x7f, 33, 0x1234&0x7f]. -/
theorem control14_encoding (ch p v rs : Nat) (hp : p < 32) :
    process_event (.control14 ch p v) rs =
      (if (0xB0 ||| ch) ≠ rs then 0xB0 ||| ch else rs,
        some (if (0xB0 ||| ch) ≠ rs then
            [0xB0 ||| ch, p, (v >>> 7) &&& 0x7f, p + 32, v &&& 0x7f]
          else [p, (v >>> 7) &&& 0x7f, p + 32, v &&& 0x7f])) ∧
    process_event (.control14 0 1 0x1234) 0 =
      (0xB0, some [0xB0, 1, (0x1234 >>> 7) &&& 0x7f, 33, 0x1234 &&& 0x7f]) := by
  refine ⟨?_, by decide⟩
  by_cases h : (0xB0 ||| ch) ≠ rs
  · simp [process_event, hp, h]
  · simp [process_event, hp, not_ne_iff.mp h]

/-- C7 witness: the theorem applied at controller 1, value 0x1234,
running_status 0 on channel 0. -/
theorem control14_encoding_witness :
    process_event (.control14 0 1 0x1234) 0 =
      (if (0xB0 ||| 0) ≠ 0 then 0xB0 ||| 0 else 0,
        some (if (0xB0 ||| 0) ≠ 0 then
            [0xB0 ||| 0, 1, (0x1234 >>> 7) &&& 0x7f, 1 + 32, 0x1234 &&& 0x7f]
          else [1, (0x1234 >>> 7) &&& 0x7f, 1 + 32, 0x1234 &&& 0x7f])) ∧
    process_event (.control14 0 1 0x1234) 0 =
      (0xB0, some [0xB0, 1, (0x1234 >>> 7) &&& 0x7f, 33, 0x1234 &&& 0x7f]) :=
  control14_encoding 0 1 0x1234 0 (by decide)

/-- C8: a note-off on channel ch with note n and any velocity is encoded
exactly as a note-on with velocity 0 (same running-status compression), and
the emitted bytes never contain the status byte 0x80|ch. -/
theorem noteOff_encoded_as_noteOn_velocity_zero (ch n v rs : Nat) :
    process_event (.noteOff ch n v) rs = process_event (.noteOn ch n 0) rs ∧
    (ch < 16 → n < 128 →
      (0x80 ||| ch) ∉ ((process_event (.noteOff ch n v) rs).2.getD [])) := by
  constructor
  · rfl
  · intro hch hn
    have h80 := lor_0x80 ch hch
    have h90 := lor_0x90 ch hch
    by_cases h : (0x90 ||| ch) ≠ rs
    · simp only [process_event, if_pos h, Option.getD_some, List.mem_cons,
        List.not_mem_nil, or_false]
      omega
    · simp only [process_event, if_neg h, Option.getD_some, List.mem_cons,
        List.not_mem_nil, or_false]
      omega

/-- C8 witness: the theorem applied at channel 0, note 60, velocity 100,
running_status 0. -/
theorem noteOff_encoded_as_noteOn_velocity_zero_witness :
    process_event (.noteOff 0 60 100) 0 = process_event (.noteOn 0 60 0) 0 ∧
    (0x80 ||| 0) ∉ ((process_event (.noteOff 0 60 100) 0).2.getD []) :=
  ⟨(noteOff_encoded_as_noteOn_velocity_zero 0 60 100 0).1,
    (noteOff_encoded_as_noteOn_velocity_zero 0 60 100 0).2 (by decide) (by decide)⟩

/-- C10: when the computed status byte differs from running_status,
process_event updates running_status before calling write_event; so when
the channel is too full for the 3-byte note-on message, the bytes are
dropped (state unchanged apart from the diagnostic) while running_status
retains the new status, and a subsequent event with the same status byte is
emitted without its leading status byte even though no status byte for it
ever entered the channel. -/
theorem running_status_survives_dropped_write (ch n v n2 v2 rs : Nat) (c : Channel)
    (hrs : rs ≠ 0x90 ||| ch)
    (hfree : free_space c.event_read_index c.event_write_index < 3) :
    (process_event_ch (.noteOn ch n v) rs c).1 = 0x90 ||| ch ∧
    (process_event_ch (.noteOn ch n v) rs c).2 =
      { c with overflow_diags := c.overflow_diags + 1 } ∧
    (process_event (.noteOn ch n2 v2) (0x90 ||| ch)).2 = some [n2, v2] := by
  have hne : (0x90 ||| ch) ≠ rs := Ne.symm hrs
  refine ⟨?_, ?_, ?_⟩
  · simp [process_event_ch, process_event, hne]
  · simp only [process_event_ch, process_event, if_pos hne]
    show write_event [0x90 ||| ch, n, v] c = _
    unfold write_event
    rw [if_pos (by simp only [List.length_cons, List.length_nil]; omega)]
  · simp [process_event]

lemma prefillLoop_eq (n : Nat) : ∀ k i, n - i = k →
    prefillLoop n i = (List.range' i (n - i)).map MainAction.write := by
  intro k
  induction k with
  | zero =>
    intro i hk
    rw [prefillLoop, dif_neg (by omega), hk]
    rfl
  | succ k ih =>
    intro i hk
    rw [prefillLoop, dif_pos (by omega), ih (i + 1) (by omega)]
    have h1 : n - i = (n - (i + 1)) + 1 := by omega
    rw [h1, List.range'_succ, List.map_cons]

/-- C4 (amended): at startup, before entering the tick loop, main_loop
writes (without rendering: the slots still hold the zeros from
start_synth) the subbuffers with indices 2 through N-1 to the device, and
then attempts an initial pause of the output device. -/
theorem mainLoopStartup_writes_then_pauses (n : Nat) :
    mainLoopStartup n =
      (List.range' 2 (n - 2)).map MainAction.write ++ [MainAction.tryPause] := by
  unfold mainLoopStartup
  rw [prefillLoop_eq n (n - 2) 2 rfl]

/-- C4 counterexample: with N = 4 subbuffers the startup sequence of the
source (writes of slots 2 and 3, then a pause attempt) differs from the
sequence the claim describes (render and write of each of slots 2 and 3,
then a pause attempt): the source never renders during the pre-fill. -/
theorem mainLoopStartup_counterexample : mainLoopStartup 4 ≠ mainLoopStartupSpec 4 := by
  rw [mainLoopStartup, prefillLoop_eq 4 2 2 rfl]
  decide

/-- C10 witness: a channel with two free bytes (read index 0, write index
65533) drops the 3-byte note-on but keeps the new running status, and the
next note-on on the same channel is emitted statusless. -/
theorem running_status_survives_dropped_write_witness :
    (process_event_ch (.noteOn 0 60 100) 0 nearFullChannel).1 = 0x90 ||| 0 ∧
    (process_event_ch (.noteOn 0 60 100) 0 nearFullChannel).2 =
      { nearFullChannel with overflow_diags := nearFullChannel.overflow_diags + 1 } ∧
    (process_event (.noteOn 0 64 90) (0x90 ||| 0)).2 = some [64, 90] :=
  running_status_survives_dropped_write 0 60 100 64 90 0 nearFullChannel
    (by decide) (by decide)

lemma advance_eq_mod (sb nsub : Nat) (h : sb < nsub) :
    (if sb + 1 = nsub then 0 else sb + 1) = (sb + 1) % nsub := by
  split
  · next he => rw [he, Nat.mod_self]
  · next he => rw [Nat.mod_eq_of_lt (by omega)]

lemma drainTrace_mod (renderOk : Nat → Bool) (nsub s it n : Nat) :
    drainTrace renderOk nsub (s % nsub) it n = drainTrace renderOk nsub s it n := by
  unfold drainTrace
  congr 1
  funext i
  rw [Nat.mod_add_mod]

lemma drainTrace_succ (renderOk : Nat → Bool) (nsub sb it n : Nat) :
    drainTrace renderOk nsub sb it (n + 1) =
      TickAction.render (sb % nsub) (renderOk it) ::
      TickAction.write (sb % nsub) true ::
      drainTrace renderOk nsub (sb + 1) (it + 1) n := by
  unfold drainTrace
  rw [List.range_succ_eq_map, List.flatMap_cons, List.flatMap_map]
  simp only [Nat.add_zero, List.cons_append, List.nil_append]
  congr 2
  · congr 1
    funext a
    have e1 : sb + Nat.succ a = sb + 1 + a := by omega
    have e2 : it + Nat.succ a = it + 1 + a := by omega
    rw [e1, e2]

lemma numIters_succ (spc avail : Nat) (hspc : 0 < spc) (hg : 3 * spc ≤ avail) :
    numIters spc avail = numIters spc (avail - spc) + 1 := by
  unfold numIters
  rw [if_neg (by omega)]
  by_cases h2 : avail - spc < 3 * spc
  · rw [if_pos h2]
    have hd : avail / spc = 3 := Nat.div_eq_of_lt_le (by omega) (by omega)
    omega
  · rw [if_neg h2]
    have hd : avail / spc = (avail - spc) / spc + 1 := Nat.div_eq_sub_div (by omega) (by omega)
    have h3 : 3 ≤ (avail - spc) / spc := (Nat.le_div_iff_mul_le (by omega)).mpr (by omega)
    omega

lemma drainLoopAux_success (renderOk outputOk : Nat → Bool) (spc nsub : Nat)
    (hspc : 0 < spc) (houtput : ∀ k, outputOk k = true) :
    ∀ fuel avail sb it, avail ≤ fuel → sb < nsub →
      drainLoopAux renderOk outputOk spc nsub fuel avail sb it =
        (avail - numIters spc avail * spc,
         (sb + numIters spc avail) % nsub,
         drainTrace renderOk nsub sb it (numIters spc avail)) := by
  intro fuel
  induction fuel with
  | zero =>
    intro avail sb it hf hsb
    have h0 : avail = 0 := by omega
    subst h0
    have hni : numIters spc 0 = 0 := by unfold numIters; rw [if_pos (by omega)]
    rw [hni]
    simp [drainLoopAux, drainTrace, Nat.mod_eq_of_lt hsb]
  | succ fuel ih =>
    intro avail sb it hf hsb
    by_cases hg : 3 * spc ≤ avail
    · have hni := numIters_succ spc avail hspc hg
      have hsb2 : (if sb + 1 = nsub then 0 else sb + 1) < nsub := by split <;> omega
      simp only [drainLoopAux]
      rw [if_pos hg, if_pos (houtput it)]
      rw [ih (avail - spc) (if sb + 1 = nsub then 0 else sb + 1) (it + 1) (by omega) hsb2]
      rw [hni]
      have hmul : (numIters spc (avail - spc) + 1) * spc =
          numIters spc (avail - spc) * spc + spc := by ring
      simp only [Prod.mk.injEq]
      refine ⟨?_, ?_, ?_⟩
      · omega
      · rw [advance_eq_mod sb nsub hsb, Nat.mod_add_mod]
        congr 1
        omega
      · rw [advance_eq_mod sb nsub hsb, drainTrace_mod, drainTrace_succ,
          Nat.mod_eq_of_lt hsb]
    · have hni : numIters spc avail = 0 := by unfold numIters; rw [if_pos (by omega)]
      rw [hni]
      simp only [drainLoopAux]
      rw [if_neg hg]
      simp [drainTrace, Nat.mod_eq_of_lt hsb]

/-- C5 (amended): on each tick, the drain loop iterates exactly while the
available free frames are at least (not strictly more than) three periods;
each iteration drains and renders into the slot indexed by the subbuffer
counter and writes that slot regardless of the render result (a render
failure only changes the recorded render action), advances the counter
modulo N and subtracts one period from the available frames — so with all
device writes succeeding the loop performs numIters iterations on
consecutive slots; and on a device write failure the available-frame
budget is set to zero and the loop exits immediately without advancing the
counter. -/
theorem drain_loop_tick (renderOk outputOk : Nat → Bool)
    (spc nsub avail sb : Nat) (hspc : 0 < spc) (hsb : sb < nsub) :
    ((∀ k, outputOk k = true) →
      drainLoop renderOk outputOk spc nsub avail sb =
        (avail - numIters spc avail * spc,
         (sb + numIters spc avail) % nsub,
         drainTrace renderOk nsub sb 0 (numIters spc avail))) ∧
    (3 * spc ≤ avail → outputOk 0 = false →
      drainLoop renderOk outputOk spc nsub avail sb =
        (0, sb, [TickAction.render sb (renderOk 0), TickAction.write sb false])) := by
  constructor
  · intro houtput
    exact drainLoopAux_success renderOk outputOk spc nsub hspc houtput
      avail avail sb 0 le_rfl hsb
  · intro hg hout
    unfold drainLoop
    obtain ⟨k, hk⟩ : ∃ k, avail = k + 1 := ⟨avail - 1, by omega⟩
    rw [hk]
    simp only [drainLoopAux]
    rw [if_pos (by omega), if_neg (by simp [hout])]

/-- C5 witness: period 100 frames, 4 subbuffers, 350 frames available,
counter at 0, all writes succeeding: one iteration runs (350/100 - 2 = 1)
on slot 0. -/
theorem drain_loop_tick_witness :
    drainLoop (fun _ => true) (fun _ => true) 100 4 350 0 =
      (350 - numIters 100 350 * 100, (0 + numIters 100 350) % 4,
       drainTrace (fun _ => true) 4 0 0 (numIters 100 350)) :=
  (drain_loop_tick (fun _ => true) (fun _ => true) 100 4 350 0
    (by decide) (by decide)).1 (fun _ => rfl)

/-- C5 counterexample: with a period of 100 frames and exactly 300
available frames, the available frames do not exceed three periods, yet
the source loop performs an iteration (its guard is >=, not >): the claim
that the loop iterates exactly while available frames exceed three periods
is false at this input. -/
theorem drain_loop_guard_counterexample :
    ¬ (300 > 3 * 100) ∧
    (drainLoop (fun _ => true) (fun _ => true) 100 4 300 0).2.2 ≠ [] := by
  refine ⟨by omega, ?_⟩
  decide

/-- C9: in main_loop, when the state is active (not paused) and more than
60 seconds have elapsed since the last recorded activity, the tick
attempts to pause the output device; on success it transitions to paused,
and a paused state with no new activity never attempts a pause again (so
the device is paused exactly once per idle period); on failure the
last-activity timestamp is reset to the current time, so a later tick
attempts a pause exactly when one more full idle threshold has elapsed
from the failed attempt. -/
theorem idle_pause_state_machine (s : TickState) (now : Int) (pauseOk : Bool)
    (hactive : s.is_paused = false) (hidle : now - s.last_written_time > 60) :
    (tick_prologue false now pauseOk s).2 = [PcmAction.tryPause pauseOk] ∧
    (pauseOk = true →
      (tick_prologue false now true s).1 = { s with is_paused := true }) ∧
    (∀ s' : TickState, s'.is_paused = true →
      ∀ (t : Int) (pk : Bool), tick_prologue false t pk s' = (s', [])) ∧
    (pauseOk = false →
      (tick_prologue false now false s).1 = { s with last_written_time := now } ∧
      ∀ (t : Int) (pk : Bool),
        (tick_prologue false t pk { s with last_written_time := now }).2 ≠ [] ↔
          t - now > 60) := by
  refine ⟨?_, ?_, ?_, ?_⟩
  · cases pauseOk <;> simp [tick_prologue, hactive, hidle]
  · intro _
    simp [tick_prologue, hactive, hidle]
  · intro s' hp' t pk
    simp [tick_prologue, hp']
  · intro _
    refine ⟨by simp [tick_prologue, hactive, hidle], ?_⟩
    intro t pk
    by_cases h2 : t - now > 60
    · cases pk <;> simp [tick_prologue, hactive, h2]
    · simp [tick_prologue, hactive, h2]

/-- C9 witness: active state with last activity at second 0, current time
second 61, pause supported: the pause is attempted and succeeds. -/
theorem idle_pause_state_machine_witness :
    (tick_prologue false 61 true ⟨false, 0⟩).2 = [PcmAction.tryPause true] ∧
    (true = true →
      (tick_prologue false 61 true ⟨false, 0⟩).1 =
        { (⟨false, 0⟩ : TickState) with is_paused := true }) ∧
    (∀ s' : TickState, s'.is_paused = true →
      ∀ (t : Int) (pk : Bool), tick_prologue false t pk s' = (s', [])) ∧
    (true = false →
      (tick_prologue false 61 false ⟨false, 0⟩).1 =
        { (⟨false, 0⟩ : TickState) with last_written_time := 61 } ∧
      ∀ (t : Int) (pk : Bool),
        (tick_prologue false t pk
            { (⟨false, 0⟩ : TickState) with last_written_time := 61 }).2 ≠ [] ↔
          t - 61 > 60) :=
  idle_pause_state_machine ⟨false, 0⟩ 61 true rfl (by decide)

end EasAlsaDrv
